import Mathlib

/-!
Verification of the size-bounded recency cache in `midware.py`
(`ObjHeap`, `MemoryCache`, and the `Cache.__call__` response-cache wrapper).

The Python code is embedded shallowly:
* `ObjHeap.__node` becomes `HNode`; the `__dict`/`__heap` pair share node
  objects and always hold the same node set, so the state is the node list
  plus the `freq` counter and the `size` bound.
* CPython's `heapq` (`_siftdown`, `_siftup`, `heappush`, `heappop`,
  `heapify`) is translated verbatim; the two internal `while` loops take an
  explicit fuel argument chosen large enough that it never runs out on the
  loops' actual traces (`_siftdown` runs at most `pos` iterations since the
  index strictly decreases, `_siftup` at most `endpos` iterations since the
  index strictly increases).
* Exceptions (`KeyError`, `IndexError` from popping an empty list) become
  `Except String`.
* `time.time()` becomes an explicit integer-instant parameter `now`.
-/

namespace Midware

open scoped List

/-- A heap node: `ObjHeap.__node` with fields `k`, `v`, `freq`;
`__lt__` compares `freq` only. -/
structure HNode (κ ν : Type) where
  k : κ
  v : ν
  freq : Nat
deriving DecidableEq, Inhabited, Repr

variable {κ ν : Type} [DecidableEq κ] [Inhabited κ] [Inhabited ν]

/-- Python list subscript `l[i]` (total; all uses are in bounds on real traces). -/
def lget (l : List (HNode κ ν)) (i : Nat) : HNode κ ν :=
  l.getD i default

/-- Loop body of CPython `heapq._siftdown(heap, startpos, pos)` after
`newitem = heap[pos]` was read; the fuel dominates the iteration count
(the position strictly decreases, so `pos + 1` is enough). -/
def siftdownAux (newitem : HNode κ ν) (startpos : Nat) :
    Nat → List (HNode κ ν) → Nat → List (HNode κ ν)
  | 0, heap, pos => heap.set pos newitem
  | fuel + 1, heap, pos =>
    if startpos < pos then
      let parentpos := (pos - 1) / 2
      let parent := lget heap parentpos
      if newitem.freq < parent.freq then
        siftdownAux newitem startpos fuel (heap.set pos parent) parentpos
      else
        heap.set pos newitem
    else
      heap.set pos newitem

/-- CPython `heapq._siftdown(heap, startpos, pos)`. -/
def siftdown (heap : List (HNode κ ν)) (startpos pos : Nat) : List (HNode κ ν) :=
  siftdownAux (lget heap pos) startpos (pos + 1) heap pos

/-- Loop body of CPython `heapq._siftup(heap, pos)`; afterwards the item is
written back and sifted down.  The position strictly increases towards
`endpos`, so fuel `endpos + 1` never runs out. -/
def siftupAux (endpos : Nat) (newitem : HNode κ ν) (startpos : Nat) :
    Nat → List (HNode κ ν) → Nat → List (HNode κ ν)
  | 0, heap, pos => siftdown (heap.set pos newitem) startpos pos
  | fuel + 1, heap, pos =>
    let childpos := 2 * pos + 1
    if childpos < endpos then
      let rightpos := childpos + 1
      let childpos :=
        if rightpos < endpos ∧ ¬ (lget heap childpos).freq < (lget heap rightpos).freq then
          rightpos
        else childpos
      siftupAux endpos newitem startpos fuel (heap.set pos (lget heap childpos)) childpos
    else
      siftdown (heap.set pos newitem) startpos pos

/-- CPython `heapq._siftup(heap, pos)`:
`endpos = len(heap); startpos = pos; newitem = heap[pos]`. -/
def siftup (heap : List (HNode κ ν)) (pos : Nat) : List (HNode κ ν) :=
  siftupAux heap.length (lget heap pos) pos (heap.length + 1) heap pos

/-- CPython `heapq.heappush`. -/
def heappush (heap : List (HNode κ ν)) (item : HNode κ ν) : List (HNode κ ν) :=
  siftdown (heap ++ [item]) 0 ((heap ++ [item]).length - 1)

/-- CPython `heapq.heappop` (callers guard against the empty heap, where
Python raises `IndexError`). -/
def heappop (heap : List (HNode κ ν)) : HNode κ ν × List (HNode κ ν) :=
  let lastelt := lget heap (heap.length - 1)
  let rest := heap.dropLast
  match rest with
  | [] => (lastelt, [])
  | _ :: _ => (lget rest 0, siftup (rest.set 0 lastelt) 0)

/-- CPython `heapq.heapify`: `for i in reversed(range(n // 2)): _siftup(x, i)`. -/
def heapify (h : List (HNode κ ν)) : List (HNode κ ν) :=
  (List.range (h.length / 2)).reverse.foldl siftup h

/-- The `for n in self.__heap: n.freq = 0` reset inside `__setitem__`'s
eviction loop. -/
def resetFreqs (h : List (HNode κ ν)) : List (HNode κ ν) :=
  h.map fun n => { n with freq := 0 }

/-- State of `ObjHeap`: capacity bound `size`, shared counter `freq`, and the
node list (`__dict` and `__heap` always hold exactly the same nodes, so one
list represents both). -/
structure ObjHeap (κ ν : Type) where
  size : Int
  freq : Nat
  heap : List (HNode κ ν)
deriving DecidableEq, Repr

/-- `ObjHeap.__init__(size)`. -/
def ObjHeap.init (size : Int) : ObjHeap κ ν :=
  { size := size, freq := 0, heap := [] }

/-- `ObjHeap.__len__` / `__contains__`. -/
def ObjHeap.lenH (st : ObjHeap κ ν) : Nat :=
  st.heap.length

/-- `k in oh` (dict membership). -/
def ObjHeap.containsKey (st : ObjHeap κ ν) (k : κ) : Bool :=
  st.heap.any fun n => decide (n.k = k)

/-- The `while len(self.__heap) >= self.size:` eviction loop of
`ObjHeap.__setitem__`: pop the root (raising `IndexError` on an empty list),
drop its key from the dict, reset the counter and every remaining node's
`freq` to 0.  The loop shortens the heap by one per iteration, so fuel
`heap.length + 1` never runs out. -/
def evictAux (size : Int) : Nat → List (HNode κ ν) → Nat →
    Except String (List (HNode κ ν) × Nat)
  | 0, heap, freq =>
    if (heap.length : Int) ≥ size then
      .error "IndexError: index out of range"
    else
      .ok (heap, freq)
  | fuel + 1, heap, freq =>
    if (heap.length : Int) ≥ size then
      match heap with
      | [] => .error "IndexError: index out of range"
      | _ :: _ => evictAux size fuel (resetFreqs (heappop heap).2) 0
    else
      .ok (heap, freq)

/-- `ObjHeap.__setitem__(k, v)`: update in place (counter bumped, node
refreshed, full `heapify`) when the key exists; otherwise evict while at or
above capacity, then push a node carrying the *current* counter value
(which the insertion itself does not increment). -/
def ObjHeap.setitem (st : ObjHeap κ ν) (k : κ) (v : ν) :
    Except String (ObjHeap κ ν) :=
  if st.containsKey k then
    let freq := st.freq + 1
    .ok { st with
          freq := freq,
          heap := heapify (st.heap.map fun n =>
            if n.k = k then { n with v := v, freq := freq } else n) }
  else
    match evictAux st.size (st.heap.length + 1) st.heap st.freq with
    | .error e => .error e
    | .ok (heap, freq) =>
      .ok { st with freq := freq, heap := heappush heap ⟨k, v, freq⟩ }

/-- `ObjHeap.__getitem__(k)`: raises `KeyError` when absent; otherwise bumps
the counter, refreshes the node's `freq`, re-heapifies and returns the value. -/
def ObjHeap.getitem (st : ObjHeap κ ν) (k : κ) :
    Except String (ν × ObjHeap κ ν) :=
  match st.heap.find? (fun n => decide (n.k = k)) with
  | none => .error "KeyError"
  | some n =>
    let freq := st.freq + 1
    .ok (n.v, { st with
                freq := freq,
                heap := heapify (st.heap.map fun m =>
                  if m.k = k then { m with freq := freq } else m) })

/-- Removal of the node with the given key from the heap list
(`self.__heap.remove(n)`; node equality is object identity and keys are
unique, so this is removal of the first node carrying the key). -/
def removeKey : List (HNode κ ν) → κ → List (HNode κ ν)
  | [], _ => []
  | n :: t, k => if n.k = k then t else n :: removeKey t k

/-- `ObjHeap.__delitem__(k)`: raises `KeyError` when absent; otherwise drops
the node from dict and heap, re-heapifies, and returns the removed value. -/
def ObjHeap.delitem (st : ObjHeap κ ν) (k : κ) :
    Except String (ν × ObjHeap κ ν) :=
  match st.heap.find? (fun n => decide (n.k = k)) with
  | none => .error "KeyError"
  | some n => .ok (n.v, { st with heap := heapify (removeKey st.heap k) })

/-- Loop of `ObjHeap.__iter__`: pop a *copy* of the heap until empty, yielding
keys; fuel `heap.length` is exact. -/
def iterAux : Nat → List (HNode κ ν) → List κ
  | 0, _ => []
  | fuel + 1, h =>
    match h with
    | [] => []
    | _ :: _ =>
      let p := heappop h
      p.1.k :: iterAux fuel p.2

/-- `ObjHeap.__iter__`: keys in pop order of a snapshot copy. -/
def ObjHeap.iterKeys (st : ObjHeap κ ν) : List κ :=
  iterAux st.heap.length st.heap

/-- `MemoryCache`: an `ObjHeap` whose values are `(payload, expiry-instant)`
pairs. -/
structure MemoryCache (κ ν : Type) where
  oh : ObjHeap κ (ν × Int)
deriving DecidableEq, Repr

/-- `MemoryCache.__init__(size)`. -/
def MemoryCache.init (size : Int) : MemoryCache κ ν :=
  ⟨ObjHeap.init size⟩

/-- `MemoryCache.get_data(k)`: the `KeyError` of the subscript is caught and
becomes a `None` miss; on a hit the expiry instant is compared with the
current time, and a stale entry is deleted (a `KeyError` from that delete
would propagate, hence the uncaught `.error` branch). -/
def MemoryCache.get_data (mc : MemoryCache κ ν) (k : κ) (now : Int) :
    Except String (Option ν × MemoryCache κ ν) :=
  match mc.oh.getitem k with
  | .error _ => .ok (none, mc)
  | .ok (o, oh1) =>
    if o.2 ≥ now then
      .ok (some o.1, ⟨oh1⟩)
    else
      match oh1.delitem k with
      | .error e => .error e
      | .ok (_, oh2) => .ok (none, ⟨oh2⟩)

/-- `MemoryCache.set_data(k, v, exp)`: store `(v, time.time() + exp)`. -/
def MemoryCache.set_data (mc : MemoryCache κ ν) (k : κ) (v : ν) (exp : Int)
    (now : Int) : Except String (MemoryCache κ ν) :=
  (mc.oh.setitem k (v, now + exp)).map fun oh1 => ⟨oh1⟩

/-- Modelled from the spec: the request value object (`httputil` is not part
of this repository's source); the wrapper consumes only `req.url.path`. -/
structure Req where
  path : String
deriving DecidableEq, Repr

/-- Modelled from the spec: the response value object (`httputil.Response` is
not part of this repository's source); the wrapper consumes the
cache-lifetime field `cache`, the body (as an emptiness/truthiness check),
and a mutable header collection. -/
structure Response where
  cache : Int
  body : String
  headers : List (String × String)
deriving DecidableEq, Inhabited, Repr

/-- Modelled from the spec: `res['Cache-Control'] = value` writes an entry
into the response's mutable header collection. -/
def setHeader (hs : List (String × String)) (k v : String) :
    List (String × String) :=
  if hs.any fun p => decide (p.1 = k) then
    hs.map fun p => if p.1 = k then (k, v) else p
  else
    hs ++ [(k, v)]

/-- The handler `func` wrapped by `Cache.__call__`; its side effects are an
explicit state `σ` so that "the handler was not invoked" is expressible. -/
def CacheHandler (σ : Type) : Type :=
  Req → σ → Option Response × σ

/-- The header mutation `res['Cache-Control'] = 'max-age=%d' % res.cache`
performed by `Cache.__call__` before pickling. -/
def withCacheControl (res : Response) : Response :=
  { res with
    headers := setHeader res.headers "Cache-Control" ("max-age=" ++ toString res.cache) }

/-- `Cache.__call__`'s `inner(req)` over a `MemoryCache`, parameterised by the
serialisation boundary (`pickle.dumps` / `pickle.loads`, which may fail; the
source wraps neither in a handler, so their errors propagate) and by the
truthiness test on serialised data (`if pickled_data:`). -/
def cacheInner {σ : Type} {δ : Type} [Inhabited δ] [DecidableEq δ]
    (dumps : Response → Except String δ) (loads : δ → Except String Response)
    (dtruthy : δ → Bool) (func : CacheHandler σ)
    (mc : MemoryCache String δ) (st : σ) (req : Req) (now : Int) :
    Except String (Option Response × σ × MemoryCache String δ) :=
  match MemoryCache.get_data mc req.path now with
  | .error e => .error e
  | .ok (pd, mc1) =>
    if (match pd with | some d => dtruthy d | none => false) then
      match pd with
      | some d =>
        match loads d with
        | .error e => .error e
        | .ok r => .ok (some r, st, mc1)
      | none => .ok (none, st, mc1)
    else
      let fr := func req st
      match fr.1 with
      | none => .ok (none, fr.2, mc1)
      | some res =>
        if res.cache ≠ 0 ∧ res.body ≠ "" then
          let res1 := withCacheControl res
          match dumps res1 with
          | .error e => .error e
          | .ok d =>
            match MemoryCache.set_data mc1 req.path d res.cache now with
            | .error e => .error e
            | .ok mc2 => .ok (some res1, fr.2, mc2)
        else
          .ok (some res, fr.2, mc1)

/-- Public heap operations, for stating "after any public operation". -/
inductive HeapOp (κ ν : Type) where
  | set (k : κ) (v : ν)
  | get (k : κ)
  | del (k : κ)
  | containsOp (k : κ)
  | sizeOp
  | iterateOp

/-- State after a public operation; a raised exception leaves the state as it
was at the raise point (none of the failing operations mutate before
raising). -/
def applyOp (st : ObjHeap κ ν) : HeapOp κ ν → ObjHeap κ ν
  | .set k v =>
    match st.setitem k v with
    | .ok st1 => st1
    | .error _ => st
  | .get k =>
    match st.getitem k with
    | .ok (_, st1) => st1
    | .error _ => st
  | .del k =>
    match st.delitem k with
    | .ok (_, st1) => st1
    | .error _ => st
  | .containsOp _ => st
  | .sizeOp => st
  | .iterateOp => st

/-- A sequence of `set` calls, as in the spec's capacity scenarios. -/
def runSets (st : ObjHeap κ ν) : List (κ × ν) → Except String (ObjHeap κ ν)
  | [] => .ok st
  | (k, v) :: rest =>
    match st.setitem k v with
    | .error e => .error e
    | .ok st1 => runSets st1 rest

/-- The per-instance recency-counter bound: no stored recency exceeds the
shared counter. -/
def FreqInv (st : ObjHeap κ ν) : Prop :=
  ∀ n ∈ st.heap, n.freq ≤ st.freq

/-- Keys of the stored nodes. -/
def heapKeys (st : ObjHeap κ ν) : List κ :=
  st.heap.map HNode.k

/-- Identity serialisation for concrete wrapper scenarios (a lossless
round-trip, as the spec's serialisation boundary requires). -/
def idDumps : Response → Except String Response := fun r => .ok r

/-- Identity deserialisation for concrete wrapper scenarios. -/
def idLoads : Response → Except String Response := fun r => .ok r

/-- Truthiness of serialised responses: `pickle.dumps` never returns empty
bytes, so serialised data is always truthy. -/
def allTruthy : Response → Bool := fun _ => true

/-- A serialiser that always fails, standing for an unpicklable response. -/
def failDumps : Response → Except String Response := fun _ => .error "PicklingError"

/-- A handler returning a fixed result and counting its invocations in the
effect state. -/
def countingHandler (r : Option Response) : CacheHandler Nat :=
  fun _ n => (r, n + 1)

/-! ## Helper lemmas about the embedded `heapq` operations -/

theorem set_lget_self (l : List (HNode κ ν)) : ∀ i : Nat, l.set i (lget l i) = l := by
  induction l with
  | nil => intro i; rfl
  | cons a t ih =>
    intro i
    cases i with
    | zero => simp [lget]
    | succ j =>
      show a :: t.set j (lget (a :: t) (j + 1)) = a :: t
      rw [show lget (a :: t) (j + 1) = lget t j from rfl, ih j]

theorem cons_set_perm {α : Type} (a b : α) :
    ∀ (l : List α) (m : Nat), m < l.length → (a :: l.set m b).Perm (b :: l.set m a)
  | x :: t, 0, _ => by simpa using List.Perm.swap b a t
  | x :: t, m + 1, h => by
    have ih := cons_set_perm a b t m (by simpa using Nat.lt_of_succ_lt_succ h)
    calc (a :: (x :: t).set (m + 1) b) = a :: x :: t.set m b := rfl
      _ ~ x :: a :: t.set m b := List.Perm.swap x a _
      _ ~ x :: b :: t.set m a := ih.cons x
      _ ~ b :: x :: t.set m a := List.Perm.swap b x _
      _ = (b :: (x :: t).set (m + 1) a) := rfl

theorem set_set_perm {α : Type} :
    ∀ (l : List α) (i j : Nat) (a b : α), i < l.length → j < l.length → i ≠ j →
      ((l.set i a).set j b).Perm ((l.set i b).set j a)
  | [], i, j, a, b, hi, _, _ => by simp at hi
  | x :: t, 0, 0, a, b, _, _, hij => absurd rfl hij
  | x :: t, 0, j + 1, a, b, _, hj, _ => by
    show (a :: t.set j b).Perm (b :: t.set j a)
    exact cons_set_perm a b t j (by simpa using Nat.lt_of_succ_lt_succ hj)
  | x :: t, i + 1, 0, a, b, hi, _, _ => by
    show (b :: t.set i a).Perm (a :: t.set i b)
    exact cons_set_perm b a t i (by simpa using Nat.lt_of_succ_lt_succ hi)
  | x :: t, i + 1, j + 1, a, b, hi, hj, hij => by
    show (x :: (t.set i a).set j b).Perm (x :: (t.set i b).set j a)
    exact (set_set_perm t i j a b (by simpa using Nat.lt_of_succ_lt_succ hi)
      (by simpa using Nat.lt_of_succ_lt_succ hj)
      (fun h => hij (by simp [h]))).cons x

theorem siftdownAux_perm (ni : HNode κ ν) (sp : Nat) :
    ∀ (fuel : Nat) (heap : List (HNode κ ν)) (pos : Nat), pos < heap.length →
      (siftdownAux ni sp fuel heap pos).Perm (heap.set pos ni)
  | 0, heap, pos, _ => .refl _
  | fuel + 1, heap, pos, hpos => by
    rw [siftdownAux]
    by_cases hsp : sp < pos
    · simp only [if_pos hsp]
      by_cases hlt : ni.freq < (lget heap ((pos - 1) / 2)).freq
      · simp only [if_pos hlt]
        have hpp : (pos - 1) / 2 < pos := by omega
        have hpplen : (pos - 1) / 2 < (heap.set pos (lget heap ((pos - 1) / 2))).length := by
          simpa using Nat.lt_trans hpp hpos
        have ih := siftdownAux_perm ni sp fuel
          (heap.set pos (lget heap ((pos - 1) / 2))) ((pos - 1) / 2) hpplen
        refine ih.trans ?_
        have hswap := set_set_perm heap pos ((pos - 1) / 2)
          (lget heap ((pos - 1) / 2)) ni hpos (Nat.lt_trans hpp hpos) (Nat.ne_of_gt hpp)
        refine hswap.trans ?_
        have hsame : lget (heap.set pos ni) ((pos - 1) / 2) = lget heap ((pos - 1) / 2) := by
          unfold lget
          rw [List.getD_eq_getElem _ _ (by simpa using Nat.lt_trans hpp hpos),
            List.getD_eq_getElem _ _ (Nat.lt_trans hpp hpos),
            List.getElem_set_ne (Nat.ne_of_gt hpp)]
        rw [← hsame, set_lget_self]
      · simp only [if_neg hlt]
        exact .refl _
    · simp only [if_neg hsp]
      exact .refl _

theorem siftdown_perm (heap : List (HNode κ ν)) (sp pos : Nat) (hpos : pos < heap.length) :
    (siftdown heap sp pos).Perm heap := by
  unfold siftdown
  have h := siftdownAux_perm (lget heap pos) sp (pos + 1) heap pos hpos
  rwa [set_lget_self] at h

theorem siftupAux_perm (ni : HNode κ ν) (sp : Nat) (endpos : Nat) :
    ∀ (fuel : Nat) (heap : List (HNode κ ν)) (pos : Nat), pos < heap.length →
      endpos ≤ heap.length →
      (siftupAux endpos ni sp fuel heap pos).Perm (heap.set pos ni)
  | 0, heap, pos, hpos, _ => by
    rw [siftupAux]
    have h := siftdown_perm (heap.set pos ni) sp pos (by simpa using hpos)
    exact h
  | fuel + 1, heap, pos, hpos, hend => by
    rw [siftupAux]
    by_cases hcp : 2 * pos + 1 < endpos
    · simp only [if_pos hcp]
      set cp := if 2 * pos + 1 + 1 < endpos ∧
          ¬ (lget heap (2 * pos + 1)).freq < (lget heap (2 * pos + 1 + 1)).freq then
          2 * pos + 1 + 1 else 2 * pos + 1 with hcpdef
      have hcplt : cp < endpos := by
        rw [hcpdef]; split
        · omega
        · exact hcp
      have hcplen : cp < heap.length := Nat.lt_of_lt_of_le hcplt hend
      have hpcp : pos < cp := by rw [hcpdef]; split <;> omega
      have ih := siftupAux_perm ni sp endpos fuel
        (heap.set pos (lget heap cp)) cp (by simpa using hcplen) (by simpa using hend)
      refine ih.trans ?_
      have hswap := set_set_perm heap pos cp (lget heap cp) ni hpos hcplen (Nat.ne_of_lt hpcp)
      refine hswap.trans ?_
      have hsame : lget (heap.set pos ni) cp = lget heap cp := by
        unfold lget
        rw [List.getD_eq_getElem _ _ (by simpa using hcplen),
          List.getD_eq_getElem _ _ hcplen, List.getElem_set_ne (Nat.ne_of_lt hpcp)]
      rw [← hsame, set_lget_self]
    · simp only [if_neg hcp]
      exact siftdown_perm (heap.set pos ni) sp pos (by simpa using hpos)

theorem siftup_perm (heap : List (HNode κ ν)) (pos : Nat) (hpos : pos < heap.length) :
    (siftup heap pos).Perm heap := by
  unfold siftup
  have h := siftupAux_perm (lget heap pos) pos heap.length (heap.length + 1) heap pos hpos
    (Nat.le_refl _)
  rwa [set_lget_self] at h

theorem foldl_siftup_perm :
    ∀ (is : List Nat) (acc : List (HNode κ ν)), (∀ i ∈ is, i < acc.length) →
      (is.foldl siftup acc).Perm acc
  | [], _, _ => .refl _
  | i :: is, acc, h => by
    have h1 : i < acc.length := h i (by simp)
    have h2 := siftup_perm acc i h1
    have h3 : ∀ j ∈ is, j < (siftup acc i).length := by
      intro j hj
      rw [h2.length_eq]
      exact h j (by simp [hj])
    exact (foldl_siftup_perm is (siftup acc i) h3).trans h2

theorem heapify_perm (h : List (HNode κ ν)) : (heapify h).Perm h := by
  unfold heapify
  refine foldl_siftup_perm _ _ ?_
  intro i hi
  simp only [List.mem_reverse, List.mem_range] at hi
  omega

theorem heappush_perm (h : List (HNode κ ν)) (item : HNode κ ν) :
    (heappush h item).Perm (item :: h) := by
  unfold heappush
  have hlen : (h ++ [item]).length - 1 < (h ++ [item]).length := by simp
  exact (siftdown_perm (h ++ [item]) 0 _ hlen).trans (List.perm_append_singleton _ _)

theorem lget_last (l : List (HNode κ ν)) (hne : l ≠ []) :
    lget l (l.length - 1) = l.getLast hne := by
  unfold lget
  rw [List.getD_eq_getElem _ _ (by cases l with | nil => simp at hne | cons a t => simp),
    List.getLast_eq_getElem]

theorem getLast_cons_dropLast_perm (l : List (HNode κ ν)) (hne : l ≠ []) :
    (l.getLast hne :: l.dropLast).Perm l := by
  conv_rhs => rw [← List.dropLast_append_getLast hne]
  exact (List.perm_append_singleton _ _).symm

theorem heappop_perm (h : List (HNode κ ν)) (hne : h ≠ []) :
    ((heappop h).1 :: (heappop h).2).Perm h := by
  match h with
  | [a] => exact .refl _
  | a :: b :: t =>
    show (lget (a :: (b :: t).dropLast) 0 ::
      siftup ((a :: (b :: t).dropLast).set 0 (lget (a :: b :: t) ((a :: b :: t).length - 1))) 0).Perm
      (a :: b :: t)
    rw [lget_last (a :: b :: t) (by simp)]
    show (a :: siftup ((a :: b :: t).getLast (by simp) :: (b :: t).dropLast) 0).Perm (a :: b :: t)
    have hsp := siftup_perm ((a :: b :: t).getLast (by simp) :: (b :: t).dropLast) 0 (by simp)
    refine (hsp.cons a).trans ?_
    refine List.Perm.cons a ?_
    have hgl : (a :: b :: t).getLast (by simp) = (b :: t).getLast (by simp) :=
      List.getLast_cons (by simp)
    rw [hgl]
    exact getLast_cons_dropLast_perm (b :: t) (by simp)

theorem heapify_length (h : List (HNode κ ν)) : (heapify h).length = h.length :=
  (heapify_perm h).length_eq

theorem heapify_mem_iff (h : List (HNode κ ν)) (n : HNode κ ν) :
    n ∈ heapify h ↔ n ∈ h :=
  (heapify_perm h).mem_iff

theorem heappush_length (h : List (HNode κ ν)) (item : HNode κ ν) :
    (heappush h item).length = h.length + 1 := by
  have := (heappush_perm h item).length_eq
  simpa using this

theorem heappush_mem_iff (h : List (HNode κ ν)) (item n : HNode κ ν) :
    n ∈ heappush h item ↔ n = item ∨ n ∈ h := by
  rw [(heappush_perm h item).mem_iff]
  simp

theorem heappop_snd_length (h : List (HNode κ ν)) (hne : h ≠ []) :
    (heappop h).2.length = h.length - 1 := by
  have := (heappop_perm h hne).length_eq
  simp only [List.length_cons] at this
  omega

theorem heappop_snd_subset (h : List (HNode κ ν)) (hne : h ≠ []) (n : HNode κ ν)
    (hn : n ∈ (heappop h).2) : n ∈ h := by
  rw [← (heappop_perm h hne).mem_iff]
  simp [hn]

theorem heappop_keys_perm (h : List (HNode κ ν)) (hne : h ≠ []) :
    ((heappop h).1.k :: (heappop h).2.map HNode.k).Perm (h.map HNode.k) := by
  have := (heappop_perm h hne).map HNode.k
  simpa using this

theorem resetFreqs_length (h : List (HNode κ ν)) : (resetFreqs h).length = h.length := by
  simp [resetFreqs]

theorem resetFreqs_keys (h : List (HNode κ ν)) :
    (resetFreqs h).map HNode.k = h.map HNode.k := by
  unfold resetFreqs
  rw [List.map_map]
  exact List.map_congr_left fun n _ => rfl

theorem resetFreqs_freq (h : List (HNode κ ν)) (n : HNode κ ν) (hn : n ∈ resetFreqs h) :
    n.freq = 0 := by
  unfold resetFreqs at hn
  obtain ⟨m, _, rfl⟩ := List.mem_map.mp hn
  rfl

theorem evictAux_err (size : Int) (hsz : size ≤ 0) (fuel : Nat) :
    ∀ (heap : List (HNode κ ν)) (freq : Nat), ∃ e, evictAux size fuel heap freq = .error e := by
  induction fuel with
  | zero =>
    intro heap freq
    rw [evictAux]
    rw [if_pos (le_trans hsz (Int.ofNat_nonneg _))]
    exact ⟨_, rfl⟩
  | succ fuel ih =>
    intro heap freq
    cases heap with
    | nil =>
      rw [evictAux]
      rw [if_pos (le_trans hsz (Int.ofNat_nonneg _))]
      exact ⟨_, rfl⟩
    | cons a t =>
      rw [evictAux]
      rw [if_pos (le_trans hsz (Int.ofNat_nonneg _))]
      exact ih _ _

theorem evictAux_spec (size : Int) (hsz : 1 ≤ size) (fuel : Nat) :
    ∀ (heap : List (HNode κ ν)) (freq : Nat), heap.length ≤ fuel →
      ∃ h2 f2, evictAux size fuel heap freq = .ok (h2, f2) ∧
        h2.length = min heap.length (size - 1).toNat ∧
        (∀ n ∈ h2, n.k ∈ heap.map HNode.k) ∧
        ((∀ n ∈ heap, n.freq ≤ freq) → ∀ n ∈ h2, n.freq ≤ f2) ∧
        ((heap.map HNode.k).Nodup → (h2.map HNode.k).Nodup) := by
  induction fuel with
  | zero =>
    intro heap freq hfuel
    have hnil : heap = [] := List.eq_nil_of_length_eq_zero (Nat.le_zero.mp hfuel)
    subst hnil
    rw [evictAux]
    have hcond : ¬ ((([] : List (HNode κ ν)).length : Int) ≥ size) := by
      simp only [List.length_nil, Nat.cast_zero, ge_iff_le]
      omega
    rw [if_neg hcond]
    exact ⟨[], freq, rfl, by simp, by simp, fun h => by simp, fun h => by simp⟩
  | succ fuel ih =>
    intro heap freq hfuel
    cases heap with
    | nil =>
      rw [evictAux]
      have hcond : ¬ ((([] : List (HNode κ ν)).length : Int) ≥ size) := by
        simp only [List.length_nil, Nat.cast_zero, ge_iff_le]
        omega
      rw [if_neg hcond]
      exact ⟨[], freq, rfl, by simp, by simp, fun h => by simp, fun h => by simp⟩
    | cons a t =>
      rw [evictAux]
      by_cases hge : ((a :: t).length : Int) ≥ size
      · rw [if_pos hge]
        have hne : a :: t ≠ [] := by simp
        have hlen2 : (resetFreqs (heappop (a :: t)).2).length ≤ fuel := by
          rw [resetFreqs_length, heappop_snd_length _ hne]
          simp only [List.length_cons] at hfuel ⊢
          omega
        obtain ⟨h2, f2, heq, hlen, hkeys, hfreq, hnd⟩ := ih (resetFreqs (heappop (a :: t)).2) 0 hlen2
        refine ⟨h2, f2, heq, ?_, ?_, ?_, ?_⟩
        · rw [hlen, resetFreqs_length, heappop_snd_length _ hne]
          have hcast : size ≤ ((a :: t).length : Int) := hge
          simp only [List.length_cons] at hcast ⊢
          omega
        · intro n hn
          have := hkeys n hn
          rw [resetFreqs_keys] at this
          obtain ⟨m, hm, hmk⟩ := List.mem_map.mp this
          exact hmk ▸ List.mem_map_of_mem HNode.k (heappop_snd_subset _ hne m hm)
        · intro _ n hn
          exact hfreq (fun m hm => by rw [resetFreqs_freq _ m hm]) n hn
        · intro hnodup
          refine hnd ?_
          rw [resetFreqs_keys]
          have hperm := heappop_keys_perm (a :: t) hne
          have := (hperm.nodup_iff).mpr hnodup
          exact (List.nodup_cons.mp this).2
      · rw [if_neg hge]
        refine ⟨a :: t, freq, rfl, ?_, fun n hn => List.mem_map_of_mem HNode.k hn,
          fun h => h, fun h => h⟩
        have : ((a :: t).length : Int) < size := lt_of_not_ge hge
        omega

theorem containsKey_iff (st : ObjHeap κ ν) (k : κ) :
    st.containsKey k = true ↔ ∃ n ∈ st.heap, n.k = k := by
  simp [ObjHeap.containsKey]

theorem containsKey_false_iff (st : ObjHeap κ ν) (k : κ) :
    st.containsKey k = false ↔ ∀ n ∈ st.heap, n.k ≠ k := by
  simp [ObjHeap.containsKey]

theorem find?_eq_none_of_not_contains (st : ObjHeap κ ν) (k : κ)
    (h : st.containsKey k = false) :
    st.heap.find? (fun n => decide (n.k = k)) = none := by
  rw [List.find?_eq_none]
  intro n hn
  simp [(containsKey_false_iff st k).mp h n hn]

theorem find?_some_of_contains (st : ObjHeap κ ν) (k : κ)
    (h : st.containsKey k = true) :
    ∃ n, st.heap.find? (fun m => decide (m.k = k)) = some n ∧ n ∈ st.heap ∧ n.k = k := by
  obtain ⟨n, hn, hk⟩ := (containsKey_iff st k).mp h
  have hsome : (st.heap.find? (fun m => decide (m.k = k))).isSome := by
    rw [List.find?_isSome]
    exact ⟨n, hn, by simp [hk]⟩
  obtain ⟨m, hm⟩ := Option.isSome_iff_exists.mp hsome
  exact ⟨m, hm, List.mem_of_find?_eq_some hm, by simpa using List.find?_some hm⟩

theorem setitem_update_eq (st : ObjHeap κ ν) (k : κ) (v : ν)
    (hk : st.containsKey k = true) :
    st.setitem k v = .ok { st with
      freq := st.freq + 1,
      heap := heapify (st.heap.map fun n =>
        if n.k = k then { n with v := v, freq := st.freq + 1 } else n) } := by
  simp [ObjHeap.setitem, hk]

theorem getitem_eq (st : ObjHeap κ ν) (k : κ) (n : HNode κ ν)
    (hfind : st.heap.find? (fun m => decide (m.k = k)) = some n) :
    st.getitem k = .ok (n.v, { st with
      freq := st.freq + 1,
      heap := heapify (st.heap.map fun m =>
        if m.k = k then { m with freq := st.freq + 1 } else m) }) := by
  simp [ObjHeap.getitem, hfind]

theorem delitem_eq (st : ObjHeap κ ν) (k : κ) (n : HNode κ ν)
    (hfind : st.heap.find? (fun m => decide (m.k = k)) = some n) :
    st.delitem k = .ok (n.v, { st with heap := heapify (removeKey st.heap k) }) := by
  simp [ObjHeap.delitem, hfind]

theorem getitem_err (st : ObjHeap κ ν) (k : κ) (h : st.containsKey k = false) :
    st.getitem k = .error "KeyError" := by
  simp [ObjHeap.getitem, find?_eq_none_of_not_contains st k h]

theorem delitem_err (st : ObjHeap κ ν) (k : κ) (h : st.containsKey k = false) :
    st.delitem k = .error "KeyError" := by
  simp [ObjHeap.delitem, find?_eq_none_of_not_contains st k h]

theorem map_touch_keys (h : List (HNode κ ν)) (f : HNode κ ν → HNode κ ν)
    (hf : ∀ n, (f n).k = n.k) (k : κ) :
    (h.map fun n => if n.k = k then f n else n).map HNode.k = h.map HNode.k := by
  rw [List.map_map]
  refine List.map_congr_left fun n _ => ?_
  show HNode.k (if n.k = k then f n else n) = n.k
  by_cases hnk : n.k = k <;> simp [hnk, hf]

theorem setitem_new_spec (st : ObjHeap κ ν) (k : κ) (v : ν)
    (hsz : 1 ≤ st.size) (hk : st.containsKey k = false) :
    ∃ st2, st.setitem k v = .ok st2 ∧
      st2.size = st.size ∧
      st2.heap.length = min (st.heap.length + 1) st.size.toNat ∧
      (∀ n ∈ st2.heap, n.k = k ∨ n.k ∈ st.heap.map HNode.k) ∧
      st2.containsKey k = true ∧
      (FreqInv st → FreqInv st2) ∧
      ((st.heap.map HNode.k).Nodup → (st2.heap.map HNode.k).Nodup) := by
  obtain ⟨h2, f2, heq, hlen, hkeys, hfreq, hnd⟩ :=
    evictAux_spec st.size hsz (st.heap.length + 1) st.heap st.freq (by omega)
  refine ⟨{ st with freq := f2, heap := heappush h2 ⟨k, v, f2⟩ }, ?_, rfl, ?_, ?_, ?_, ?_, ?_⟩
  · unfold ObjHeap.setitem
    rw [if_neg (by simp [hk]), heq]
  · show (heappush h2 ⟨k, v, f2⟩).length = _
    rw [heappush_length, hlen]
    omega
  · intro n hn
    rcases (heappush_mem_iff h2 ⟨k, v, f2⟩ n).mp hn with rfl | hn2
    · exact .inl rfl
    · exact .inr (hkeys n hn2)
  · rw [containsKey_iff]
    exact ⟨⟨k, v, f2⟩, (heappush_mem_iff h2 ⟨k, v, f2⟩ _).mpr (.inl rfl), rfl⟩
  · intro hinv n hn
    rcases (heappush_mem_iff h2 ⟨k, v, f2⟩ n).mp hn with rfl | hn2
    · exact le_refl _
    · exact hfreq (fun m hm => hinv m hm) n hn2
  · intro hnodup
    have h2nd := hnd hnodup
    have hpk := (heappush_perm h2 ⟨k, v, f2⟩).map HNode.k
    show ((heappush h2 ⟨k, v, f2⟩).map HNode.k).Nodup
    rw [hpk.nodup_iff]
    simp only [List.map_cons, List.nodup_cons]
    refine ⟨?_, h2nd⟩
    intro hmem
    obtain ⟨m, hm, hmk⟩ := List.mem_map.mp hmem
    have hmem2 := hkeys m hm
    rw [hmk] at hmem2
    obtain ⟨m2, hm2, hm2k⟩ := List.mem_map.mp hmem2
    exact ((containsKey_false_iff st k).mp hk m2 hm2) hm2k

theorem removeKey_length_le (h : List (HNode κ ν)) (k : κ) :
    (removeKey h k).length ≤ h.length := by
  induction h with
  | nil => simp [removeKey]
  | cons a t ih =>
    rw [removeKey]
    by_cases hk : a.k = k
    · rw [if_pos hk]
      simp only [List.length_cons]
      omega
    · rw [if_neg hk]
      simp only [List.length_cons]
      omega

theorem removeKey_keys_of_nodup (h : List (HNode κ ν)) (k : κ)
    (hnd : (h.map HNode.k).Nodup) :
    ∀ n ∈ removeKey h k, n.k ≠ k := by
  induction h with
  | nil => simp [removeKey]
  | cons a t ih =>
    have hnd2 : a.k ∉ t.map HNode.k ∧ (t.map HNode.k).Nodup := by
      rw [List.map_cons, List.nodup_cons] at hnd
      exact hnd
    rw [removeKey]
    by_cases hk : a.k = k
    · rw [if_pos hk]
      intro n hn hkn
      have hknot : k ∉ t.map HNode.k := by
        have := hnd2.1
        rwa [hk] at this
      exact hknot (hkn ▸ List.mem_map_of_mem HNode.k hn)
    · rw [if_neg hk]
      intro n hn
      rcases List.mem_cons.mp hn with rfl | hn2
      · exact hk
      · exact ih hnd2.2 n hn2

theorem get_data_miss (mc : MemoryCache κ ν) (k : κ) (now : Int)
    (h : mc.oh.containsKey k = false) :
    mc.get_data k now = .ok (none, mc) := by
  unfold MemoryCache.get_data
  rw [getitem_err mc.oh k h]

theorem get_data_hit_eq (mc : MemoryCache κ ν) (k : κ) (now : Int)
    (n : HNode κ (ν × Int))
    (hfind : mc.oh.heap.find? (fun m => decide (m.k = k)) = some n)
    (hfresh : n.v.2 ≥ now) :
    mc.get_data k now = .ok (some n.v.1,
      ⟨{ mc.oh with
         freq := mc.oh.freq + 1,
         heap := heapify (mc.oh.heap.map fun m =>
           if m.k = k then { m with freq := mc.oh.freq + 1 } else m) }⟩) := by
  unfold MemoryCache.get_data
  rw [getitem_eq mc.oh k n hfind]
  simp [hfresh]

theorem setHeader_mem (hs : List (String × String)) (k v : String) :
    (k, v) ∈ setHeader hs k v := by
  unfold setHeader
  by_cases h : hs.any fun p => decide (p.1 = k)
  · rw [if_pos h]
    obtain ⟨p, hp, hpk⟩ := List.any_eq_true.mp h
    have hpmem : (if p.1 = k then (k, v) else p) ∈ hs.map fun q => if q.1 = k then (k, v) else q :=
      List.mem_map_of_mem _ hp
    rwa [if_pos (of_decide_eq_true hpk)] at hpmem
  · rw [if_neg h]
    simp

theorem evictAux_ok_freq (size : Int) (fuel : Nat) :
    ∀ (heap : List (HNode κ ν)) (freq : Nat) (h2 : List (HNode κ ν)) (f2 : Nat),
      evictAux size fuel heap freq = .ok (h2, f2) →
      (∀ n ∈ heap, n.freq ≤ freq) → ∀ n ∈ h2, n.freq ≤ f2 := by
  induction fuel with
  | zero =>
    intro heap freq h2 f2 hE hb
    rw [evictAux] at hE
    by_cases hge : (heap.length : Int) ≥ size
    · rw [if_pos hge] at hE
      exact absurd hE (by simp)
    · rw [if_neg hge] at hE
      have hp : heap = h2 ∧ freq = f2 := by simpa using hE
      obtain ⟨rfl, rfl⟩ := hp
      exact hb
  | succ fuel ih =>
    intro heap freq h2 f2 hE hb
    cases heap with
    | nil =>
      rw [evictAux] at hE
      by_cases hge : ((([] : List (HNode κ ν)).length : Int) ≥ size)
      · rw [if_pos hge] at hE
        exact absurd hE (by simp)
      · rw [if_neg hge] at hE
        have hp : ([] : List (HNode κ ν)) = h2 ∧ freq = f2 := by simpa using hE
        obtain ⟨rfl, rfl⟩ := hp
        exact hb
    | cons a t =>
      rw [evictAux] at hE
      by_cases hge : (((a :: t).length : Int) ≥ size)
      · rw [if_pos hge] at hE
        exact ih _ 0 h2 f2 hE fun n hn => by rw [resetFreqs_freq _ n hn]
      · rw [if_neg hge] at hE
        have hp : a :: t = h2 ∧ freq = f2 := by simpa using hE
        obtain ⟨rfl, rfl⟩ := hp
        exact hb

theorem touch_heap_spec (h : List (HNode κ ν)) (k : κ) (f : HNode κ ν → HNode κ ν)
    (freq0 : Nat) (hbound : ∀ n ∈ h, n.freq ≤ freq0)
    (hf : ∀ n, (f n).k = n.k ∧ (f n).freq = freq0 + 1) :
    ∀ m ∈ heapify (h.map fun n => if n.k = k then f n else n),
      (m.k = k → m.freq = freq0 + 1) ∧ (m.k ≠ k → m.freq < freq0 + 1) := by
  intro m hm
  rw [heapify_mem_iff] at hm
  obtain ⟨x, hx, hfx⟩ := List.mem_map.mp hm
  by_cases hxk : x.k = k
  · rw [if_pos hxk] at hfx
    subst hfx
    exact ⟨fun _ => (hf x).2, fun hne => absurd ((hf x).1.trans hxk) hne⟩
  · rw [if_neg hxk] at hfx
    subst hfx
    exact ⟨fun hk2 => absurd hk2 hxk, fun _ => Nat.lt_succ_of_le (hbound x hx)⟩

/-! ## Claim theorems -/

/-- C10: for a heap constructed with capacity ≤ 0, `set` on any new key
raises an uncaught `IndexError` (popping the empty eviction heap) instead of
inserting the entry, and no entry is ever stored: any sequence of public
operations starting from such a fresh heap leaves it empty. -/
theorem capacity_nonpositive_set_raises (C : Int) (hC : C ≤ 0) :
    (∀ (st : ObjHeap κ ν) (k : κ) (v : ν), st.size = C → st.containsKey k = false →
      ∃ e, st.setitem k v = .error e) ∧
    (∀ ops : List (HeapOp κ ν), (ops.foldl applyOp (ObjHeap.init C)).heap = []) := by
  have hset : ∀ (st : ObjHeap κ ν) (k : κ) (v : ν), st.size ≤ 0 → st.containsKey k = false →
      ∃ e, st.setitem k v = .error e := by
    intro st k v hsz hk
    obtain ⟨e, he⟩ := evictAux_err st.size hsz (st.heap.length + 1) st.heap st.freq
    refine ⟨e, ?_⟩
    unfold ObjHeap.setitem
    rw [if_neg (by simp [hk]), he]
  constructor
  · intro st k v hsz hk
    exact hset st k v (by rw [hsz]; exact hC) hk
  · have main : ∀ (ops : List (HeapOp κ ν)) (st : ObjHeap κ ν), st.heap = [] → st.size = C →
        (ops.foldl applyOp st).heap = [] := by
      intro ops
      induction ops with
      | nil => intro st h1 _; exact h1
      | cons op rest ih =>
        intro st h1 h2
        have hk0 : ∀ k : κ, st.containsKey k = false := by
          intro k
          simp [ObjHeap.containsKey, h1]
        have hstep : applyOp st op = st := by
          cases op with
          | set k v =>
            obtain ⟨e, he⟩ := hset st k v (by rw [h2]; exact hC) (hk0 k)
            simp [applyOp, he]
          | get k => simp [applyOp, getitem_err st k (hk0 k)]
          | del k => simp [applyOp, delitem_err st k (hk0 k)]
          | containsOp k => rfl
          | sizeOp => rfl
          | iterateOp => rfl
        rw [List.foldl_cons, hstep]
        exact ih st h1 h2
    intro ops
    exact main ops _ rfl rfl

theorem capacity_nonpositive_set_raises_witness :
    (0 : Int) ≤ 0 ∧
      (∃ e, (ObjHeap.init (κ := Nat) (ν := Nat) 0).setitem 1 10 = .error e) :=
  ⟨by decide,
    (capacity_nonpositive_set_raises 0 (by decide)).1 (ObjHeap.init 0) 1 10 rfl (by decide)⟩

/-- C7: `get` and `delete` on an absent key raise `KeyError` rather than
silently returning a default, and the Expiring Cache's `get_data` converts
that error into the normal `None` miss with the cache state unchanged. -/
theorem absent_key_raises (st : ObjHeap κ ν) (k : κ) (h : st.containsKey k = false)
    (mc : MemoryCache κ ν) (now : Int) (hmc : mc.oh.containsKey k = false) :
    st.getitem k = .error "KeyError" ∧ st.delitem k = .error "KeyError" ∧
      mc.get_data k now = .ok (none, mc) :=
  ⟨getitem_err st k h, delitem_err st k h, get_data_miss mc k now hmc⟩

theorem absent_key_raises_witness :
    ((⟨2, 0, [⟨1, 10, 0⟩]⟩ : ObjHeap Nat Nat).containsKey 7 = false) ∧
    ((⟨2, 0, [⟨1, 10, 0⟩]⟩ : ObjHeap Nat Nat).getitem 7 = .error "KeyError" ∧
      (⟨2, 0, [⟨1, 10, 0⟩]⟩ : ObjHeap Nat Nat).delitem 7 = .error "KeyError" ∧
      (⟨⟨2, 0, [⟨1, (10, 5), 0⟩]⟩⟩ : MemoryCache Nat Nat).get_data 7 3 =
        .ok (none, ⟨⟨2, 0, [⟨1, (10, 5), 0⟩]⟩⟩)) :=
  ⟨by decide, absent_key_raises _ 7 (by decide) _ 3 (by decide)⟩

/-- C2 counterexample: on a fresh capacity-2 heap, two plain insertions both
receive recency 0 (insertion reuses the current counter value without
incrementing it), so stored recency values are not pairwise distinct and the
second insertion's recency is not strictly greater than the first's. -/
theorem recency_ties_counterexample :
    (runSets (ObjHeap.init (κ := Nat) (ν := Nat) 2) [(1, 10), (2, 20)]).map
      (fun st => (st.heap.map HNode.k, st.heap.map HNode.freq)) = .ok ([1, 2], [0, 0]) := rfl

/-- C2 amended: stored recencies never exceed the instance counter, and every
`get` or update-`set` increments the counter and assigns the touched entry a
recency strictly greater than that of every other stored entry; but plain
insertions reuse the current counter value and evictions reset the counter
and all stored recencies to 0, so distinct entries can share a recency. -/
theorem recency_touch_strict (st : ObjHeap κ ν) (k : κ) (v : ν) (hinv : FreqInv st) :
    (∀ st2, st.setitem k v = .ok st2 → FreqInv st2) ∧
    (∀ v2 st2, st.getitem k = .ok (v2, st2) →
      st2.freq = st.freq + 1 ∧ FreqInv st2 ∧
      ∀ m ∈ st2.heap, (m.k = k → m.freq = st2.freq) ∧ (m.k ≠ k → m.freq < st2.freq)) ∧
    (st.containsKey k = true → ∀ st2, st.setitem k v = .ok st2 →
      st2.freq = st.freq + 1 ∧
      ∀ m ∈ st2.heap, (m.k = k → m.freq = st2.freq) ∧ (m.k ≠ k → m.freq < st2.freq)) := by
  refine ⟨?_, ?_, ?_⟩
  · intro st2 hok
    by_cases hk : st.containsKey k
    · rw [setitem_update_eq st k v hk] at hok
      obtain rfl := Except.ok.inj hok
      intro m hm
      have hspec := touch_heap_spec st.heap k
        (fun n => { n with v := v, freq := st.freq + 1 }) st.freq hinv
        (fun n => ⟨rfl, rfl⟩) m hm
      by_cases hmk : m.k = k
      · exact le_of_eq (hspec.1 hmk)
      · exact le_of_lt (hspec.2 hmk)
    · have hkf : st.containsKey k = false := by simpa using hk
      unfold ObjHeap.setitem at hok
      rw [if_neg (by simp [hkf])] at hok
      cases hE : evictAux st.size (st.heap.length + 1) st.heap st.freq with
      | error e =>
        rw [hE] at hok
        exact absurd hok (by simp)
      | ok p =>
        obtain ⟨h2, f2⟩ := p
        rw [hE] at hok
        obtain rfl := Except.ok.inj hok
        intro m hm
        rcases (heappush_mem_iff h2 ⟨k, v, f2⟩ m).mp hm with rfl | hm2
        · exact le_refl _
        · exact evictAux_ok_freq st.size _ st.heap st.freq h2 f2 hE hinv m hm2
  · intro v2 st2 hok
    cases hfind : st.heap.find? (fun m => decide (m.k = k)) with
    | none =>
      unfold ObjHeap.getitem at hok
      rw [hfind] at hok
      exact absurd hok (by simp)
    | some n =>
      rw [getitem_eq st k n hfind] at hok
      have hp := Except.ok.inj hok
      rw [Prod.mk.injEq] at hp
      obtain ⟨rfl, rfl⟩ := hp
      have hspec := touch_heap_spec st.heap k
        (fun m => { m with freq := st.freq + 1 }) st.freq hinv (fun m => ⟨rfl, rfl⟩)
      refine ⟨rfl, ?_, hspec⟩
      intro m hm
      by_cases hmk : m.k = k
      · exact le_of_eq ((hspec m hm).1 hmk)
      · exact le_of_lt ((hspec m hm).2 hmk)
  · intro hk st2 hok
    rw [setitem_update_eq st k v hk] at hok
    obtain rfl := Except.ok.inj hok
    exact ⟨rfl, touch_heap_spec st.heap k
      (fun n => { n with v := v, freq := st.freq + 1 }) st.freq hinv (fun n => ⟨rfl, rfl⟩)⟩

theorem recency_touch_strict_witness :
    FreqInv (⟨2, 5, [⟨1, 10, 3⟩, ⟨2, 20, 5⟩]⟩ : ObjHeap Nat Nat) ∧
      (⟨2, 6, [⟨2, 20, 5⟩, ⟨1, 10, 6⟩]⟩ : ObjHeap Nat Nat).freq = 5 + 1 ∧
      FreqInv (⟨2, 6, [⟨2, 20, 5⟩, ⟨1, 10, 6⟩]⟩ : ObjHeap Nat Nat) :=
  ⟨by unfold FreqInv; decide,
    ((recency_touch_strict (⟨2, 5, [⟨1, 10, 3⟩, ⟨2, 20, 5⟩]⟩ : ObjHeap Nat Nat) 1 0
      (by unfold FreqInv; decide)).2.1 10 ⟨2, 6, [⟨2, 20, 5⟩, ⟨1, 10, 6⟩]⟩ rfl).1,
    ((recency_touch_strict (⟨2, 5, [⟨1, 10, 3⟩, ⟨2, 20, 5⟩]⟩ : ObjHeap Nat Nat) 1 0
      (by unfold FreqInv; decide)).2.1 10 ⟨2, 6, [⟨2, 20, 5⟩, ⟨1, 10, 6⟩]⟩ rfl).2.1⟩

/-- C3: with capacity ≥ 1 and the size bound holding, the entry count stays
at most the capacity after every public operation, the capacity field is
unchanged, and `set` always succeeds (on new keys it evicts first and never
fails). -/
theorem capacity_invariant (st : ObjHeap κ ν) (hsz : 1 ≤ st.size)
    (hlen : st.heap.length ≤ st.size.toNat) (op : HeapOp κ ν) :
    (applyOp st op).heap.length ≤ st.size.toNat ∧ (applyOp st op).size = st.size ∧
      (∀ k v, op = .set k v → ∃ st2, st.setitem k v = .ok st2) := by
  cases op with
  | set k v =>
    by_cases hk : st.containsKey k
    · have heq := setitem_update_eq st k v hk
      refine ⟨?_, ?_, fun k2 v2 hop => ?_⟩
      · simp only [applyOp, heq]
        show (heapify _).length ≤ _
        rw [heapify_length, List.length_map]
        exact hlen
      · simp only [applyOp, heq]
      · cases hop
        exact ⟨_, heq⟩
    · have hkf : st.containsKey k = false := by simpa using hk
      obtain ⟨st2, heq, hsz2, hlen2, _, _, _, _⟩ := setitem_new_spec st k v hsz hkf
      refine ⟨?_, ?_, fun k2 v2 hop => ?_⟩
      · simp only [applyOp, heq]
        rw [hlen2]
        omega
      · simp only [applyOp, heq, hsz2]
      · cases hop
        exact ⟨st2, heq⟩
  | get k =>
    cases hfind : st.heap.find? (fun m => decide (m.k = k)) with
    | none =>
      have herr : st.getitem k = .error "KeyError" := by
        unfold ObjHeap.getitem
        rw [hfind]
      refine ⟨?_, ?_, fun k2 v2 hop => by cases hop⟩
      · simp only [applyOp, herr]
        exact hlen
      · simp only [applyOp, herr]
    | some n =>
      have heq := getitem_eq st k n hfind
      refine ⟨?_, ?_, fun k2 v2 hop => by cases hop⟩
      · simp only [applyOp, heq]
        show (heapify _).length ≤ _
        rw [heapify_length, List.length_map]
        exact hlen
      · simp only [applyOp, heq]
  | del k =>
    cases hfind : st.heap.find? (fun m => decide (m.k = k)) with
    | none =>
      have herr : st.delitem k = .error "KeyError" := by
        unfold ObjHeap.delitem
        rw [hfind]
      refine ⟨?_, ?_, fun k2 v2 hop => by cases hop⟩
      · simp only [applyOp, herr]
        exact hlen
      · simp only [applyOp, herr]
    | some n =>
      have heq := delitem_eq st k n hfind
      refine ⟨?_, ?_, fun k2 v2 hop => by cases hop⟩
      · simp only [applyOp, heq]
        show (heapify _).length ≤ _
        rw [heapify_length]
        exact le_trans (removeKey_length_le st.heap k) hlen
      · simp only [applyOp, heq]
  | containsOp k => exact ⟨hlen, rfl, fun k2 v2 hop => by cases hop⟩
  | sizeOp => exact ⟨hlen, rfl, fun k2 v2 hop => by cases hop⟩
  | iterateOp => exact ⟨hlen, rfl, fun k2 v2 hop => by cases hop⟩

theorem capacity_invariant_witness :
    (1 : Int) ≤ ((⟨2, 0, [⟨1, 10, 0⟩]⟩ : ObjHeap Nat Nat)).size ∧
      (⟨2, 0, [⟨1, 10, 0⟩]⟩ : ObjHeap Nat Nat).heap.length ≤
        ((⟨2, 0, [⟨1, 10, 0⟩]⟩ : ObjHeap Nat Nat)).size.toNat ∧
      (applyOp (⟨2, 0, [⟨1, 10, 0⟩]⟩ : ObjHeap Nat Nat) (.set 2 20)).heap.length ≤
        ((⟨2, 0, [⟨1, 10, 0⟩]⟩ : ObjHeap Nat Nat)).size.toNat :=
  ⟨by decide, by decide,
    (capacity_invariant (⟨2, 0, [⟨1, 10, 0⟩]⟩ : ObjHeap Nat Nat) (by decide) (by decide)
      (.set 2 20)).1⟩

theorem runSets_spec (C : Int) (hC : 1 ≤ C) :
    ∀ (pairs : List (κ × ν)) (st : ObjHeap κ ν),
      st.size = C → st.heap.length ≤ C.toNat →
      (∀ n ∈ st.heap, n.k ∉ pairs.map Prod.fst) →
      (pairs.map Prod.fst).Nodup →
      ∃ st2, runSets st pairs = .ok st2 ∧
        st2.size = C ∧
        st2.heap.length = min (st.heap.length + pairs.length) C.toNat ∧
        (∀ n ∈ st2.heap, n.k ∈ pairs.map Prod.fst ∨ n.k ∈ st.heap.map HNode.k) ∧
        (∀ p : κ × ν, pairs.getLast? = some p → st2.containsKey p.1 = true) := by
  intro pairs
  induction pairs with
  | nil =>
    intro st hsz hlen _ _
    refine ⟨st, rfl, hsz, ?_, fun n hn => .inr (List.mem_map_of_mem HNode.k hn),
      fun p hp => by simp at hp⟩
    simp only [List.length_nil, Nat.add_zero]
    omega
  | cons kv rest ih =>
    intro st hsz hlen hdisj hnd
    obtain ⟨k, v⟩ := kv
    have hkabs : st.containsKey k = false := by
      rw [containsKey_false_iff]
      intro n hn hkn
      exact hdisj n hn (by simp [hkn])
    have hsz1 : 1 ≤ st.size := by
      rw [hsz]
      exact hC
    obtain ⟨st1, heq, hs1, hl1, hkeys1, hcont1, _, _⟩ := setitem_new_spec st k v hsz1 hkabs
    have hnd1 : (rest.map Prod.fst).Nodup := by
      rw [List.map_cons, List.nodup_cons] at hnd
      exact hnd.2
    have hknotin : k ∉ rest.map Prod.fst := by
      rw [List.map_cons, List.nodup_cons] at hnd
      exact hnd.1
    have hdisj1 : ∀ n ∈ st1.heap, n.k ∉ rest.map Prod.fst := by
      intro n hn hkn
      rcases hkeys1 n hn with hk | hmem
      · exact hknotin (hk ▸ hkn)
      · obtain ⟨m, hm, hmk⟩ := List.mem_map.mp hmem
        exact hdisj m hm (by
          rw [List.map_cons]
          exact List.mem_cons_of_mem _ (hmk ▸ hkn))
    have hlen1 : st1.heap.length ≤ C.toNat := by
      rw [hl1, hsz]
      omega
    obtain ⟨st2, heq2, hs2, hl2, hkeys2, hlast2⟩ := ih st1 (hs1.trans hsz) hlen1 hdisj1 hnd1
    refine ⟨st2, ?_, hs2, ?_, ?_, ?_⟩
    · rw [runSets, heq]
      exact heq2
    · rw [hl2, hl1, hsz]
      simp only [List.length_cons]
      omega
    · intro n hn
      rcases hkeys2 n hn with hr | hmem1
      · exact .inl (by
          rw [List.map_cons]
          exact List.mem_cons_of_mem _ hr)
      · obtain ⟨m, hm, hmk⟩ := List.mem_map.mp hmem1
        rcases hkeys1 m hm with hk | hmem
        · refine .inl ?_
          rw [List.map_cons, ← hmk, hk]
          exact List.mem_cons_self _ _
        · exact .inr (hmk ▸ hmem)
    · intro p hp
      cases rest with
      | nil =>
        have hp2 : (k, v) = p := by simpa using hp
        have hst : st1 = st2 := Except.ok.inj heq2
        rw [← hp2, ← hst]
        exact hcont1
      | cons kv2 rest2 =>
        rw [List.getLast?_cons_cons] at hp
        exact hlast2 p hp

/-- C1 counterexample: capacity 4, six distinct keys set in order with no
intervening get; after the sixth set the heap still holds key 2 but has
evicted key 3, so it does not contain the 4 most-recently-inserted keys and
earlier-inserted keys are not the ones evicted in insertion order.  (The
first eviction resets all recencies to 0, after which the heap pop order
among ties is the heap-array order, not insertion order.) -/
theorem eviction_not_insertion_order_counterexample :
    (runSets (ObjHeap.init (κ := Nat) (ν := Nat) 4)
      [(1, 1), (2, 2), (3, 3), (4, 4), (5, 5), (6, 6)]).map
      (fun st => (st.containsKey 2, st.containsKey 3)) = .ok (true, false) := rfl

/-- C1 amended: for capacity C ≥ 1 and any sequence of `set` calls with
pairwise-distinct keys and no intervening `get`, every `set` succeeds and
after the whole sequence the heap holds exactly `min n C` entries, every
stored key is one of the inserted keys, and the most recently inserted key
is always present; but the evicted keys need not be the earliest-inserted
ones (eviction order among recency ties follows the internal heap-array
order, not insertion order). -/
theorem bounded_distinct_sets (C : Int) (hC : 1 ≤ C) (pairs : List (κ × ν))
    (hnd : (pairs.map Prod.fst).Nodup) :
    ∃ st, runSets (ObjHeap.init C) pairs = .ok st ∧
      st.heap.length = min pairs.length C.toNat ∧
      (∀ n ∈ st.heap, n.k ∈ pairs.map Prod.fst) ∧
      (∀ p : κ × ν, pairs.getLast? = some p → st.containsKey p.1 = true) := by
  obtain ⟨st2, heq, _, hlen, hkeys, hlast⟩ := runSets_spec C hC pairs (ObjHeap.init C) rfl
    (by simp [ObjHeap.init]) (by simp [ObjHeap.init]) hnd
  refine ⟨st2, heq, ?_, ?_, hlast⟩
  · rw [hlen]
    simp [ObjHeap.init]
  · intro n hn
    rcases hkeys n hn with h | h
    · exact h
    · simp [ObjHeap.init] at h

theorem bounded_distinct_sets_witness :
    (1 : Int) ≤ 4 ∧
      (([(1, 1), (2, 2), (3, 3), (4, 4), (5, 5), (6, 6)] :
        List (Nat × Nat)).map Prod.fst).Nodup ∧
      ∃ st, runSets (ObjHeap.init (κ := Nat) (ν := Nat) 4)
          [(1, 1), (2, 2), (3, 3), (4, 4), (5, 5), (6, 6)] = .ok st ∧
        st.heap.length = min ([(1, 1), (2, 2), (3, 3), (4, 4), (5, 5), (6, 6)] :
          List (Nat × Nat)).length (4 : Int).toNat ∧
        (∀ n ∈ st.heap, n.k ∈ ([(1, 1), (2, 2), (3, 3), (4, 4), (5, 5), (6, 6)] :
          List (Nat × Nat)).map Prod.fst) ∧
        (∀ p : Nat × Nat, ([(1, 1), (2, 2), (3, 3), (4, 4), (5, 5), (6, 6)] :
          List (Nat × Nat)).getLast? = some p → st.containsKey p.1 = true) :=
  ⟨by decide, by decide, bounded_distinct_sets 4 (by decide) _ (by decide)⟩

/-- C6: on a capacity-2 heap with pairwise-distinct keys `a`, `b`, `c`, the
sequence `set a`, `set b`, `get a`, `set c` returns `a`'s value from the
`get`, then evicts exactly `b`, leaving the heap holding exactly `a` and `c`:
the `get` advanced `a`'s recency past `b`'s, so `b` is the least recently
touched entry when the eviction happens. -/
theorem get_protects_touched_key (a b c : κ) (va vb vc : ν)
    (hab : a ≠ b) (hac : a ≠ c) (hbc : b ≠ c) :
    (ObjHeap.init 2).setitem a va = .ok (⟨2, 0, [⟨a, va, 0⟩]⟩ : ObjHeap κ ν) ∧
    (⟨2, 0, [⟨a, va, 0⟩]⟩ : ObjHeap κ ν).setitem b vb =
      .ok ⟨2, 0, [⟨a, va, 0⟩, ⟨b, vb, 0⟩]⟩ ∧
    (⟨2, 0, [⟨a, va, 0⟩, ⟨b, vb, 0⟩]⟩ : ObjHeap κ ν).getitem a =
      .ok (va, ⟨2, 1, [⟨b, vb, 0⟩, ⟨a, va, 1⟩]⟩) ∧
    (⟨2, 1, [⟨b, vb, 0⟩, ⟨a, va, 1⟩]⟩ : ObjHeap κ ν).setitem c vc =
      .ok ⟨2, 0, [⟨a, va, 0⟩, ⟨c, vc, 0⟩]⟩ ∧
    (⟨2, 0, [⟨a, va, 0⟩, ⟨c, vc, 0⟩]⟩ : ObjHeap κ ν).heap.map HNode.k = [a, c] ∧
    (⟨2, 0, [⟨a, va, 0⟩, ⟨c, vc, 0⟩]⟩ : ObjHeap κ ν).containsKey b = false := by
  refine ⟨rfl, ?_, ?_, ?_, rfl, ?_⟩
  · unfold ObjHeap.setitem
    rw [if_neg (by simp [ObjHeap.containsKey, hab])]
    with_unfolding_all rfl
  · have hfind : ([⟨a, va, 0⟩, ⟨b, vb, 0⟩] : List (HNode κ ν)).find?
        (fun n => decide (n.k = a)) = some ⟨a, va, 0⟩ :=
      List.find?_cons_of_pos _ (by simp)
    unfold ObjHeap.getitem
    rw [hfind]
    have hmap : ([⟨a, va, 0⟩, ⟨b, vb, 0⟩] : List (HNode κ ν)).map
        (fun m => if m.k = a then { m with freq := 0 + 1 } else m) = [⟨a, va, 1⟩, ⟨b, vb, 0⟩] := by
      simp [Ne.symm hab]
    show Except.ok (va, (⟨2, 0 + 1, heapify (([⟨a, va, 0⟩, ⟨b, vb, 0⟩] : List (HNode κ ν)).map
        (fun m => if m.k = a then { m with freq := 0 + 1 } else m))⟩ : ObjHeap κ ν)) =
      Except.ok (va, (⟨2, 1, [⟨b, vb, 0⟩, ⟨a, va, 1⟩]⟩ : ObjHeap κ ν))
    rw [hmap]
    with_unfolding_all rfl
  · unfold ObjHeap.setitem
    rw [if_neg (by simp [ObjHeap.containsKey, hac, hbc])]
    with_unfolding_all rfl
  · simp [ObjHeap.containsKey, hab, Ne.symm hbc]

theorem get_protects_touched_key_witness :
    (1 : Nat) ≠ 2 ∧ (1 : Nat) ≠ 3 ∧ (2 : Nat) ≠ 3 ∧
      ((⟨2, 0, [⟨1, 10, 0⟩, ⟨2, 20, 0⟩]⟩ : ObjHeap Nat Nat).getitem 1 =
        .ok (10, ⟨2, 1, [⟨2, 20, 0⟩, ⟨1, 10, 1⟩]⟩) ∧
      (⟨2, 1, [⟨2, 20, 0⟩, ⟨1, 10, 1⟩]⟩ : ObjHeap Nat Nat).setitem 3 30 =
        .ok ⟨2, 0, [⟨1, 10, 0⟩, ⟨3, 30, 0⟩]⟩ ∧
      (⟨2, 0, [⟨1, 10, 0⟩, ⟨3, 30, 0⟩]⟩ : ObjHeap Nat Nat).containsKey 2 = false) :=
  ⟨by decide, by decide, by decide,
    (get_protects_touched_key 1 2 3 10 20 30 (by decide) (by decide) (by decide)).2.2.1,
    (get_protects_touched_key 1 2 3 10 20 30 (by decide) (by decide) (by decide)).2.2.2.1,
    (get_protects_touched_key 1 2 3 10 20 30 (by decide) (by decide) (by decide)).2.2.2.2.2⟩

/-- C8: for a key present in the Expiring Cache's heap with stored pair
`(payload, instant)`: if the stored expiry instant has not yet passed
(`instant ≥ now`, as the source compares `o[1] >= time.time()`), `get_data`
returns the payload; if it has passed, `get_data` deletes the entry from the
underlying heap and returns the absent result, after which the key is no
longer contains-true. -/
theorem get_data_expiry (mc : MemoryCache κ ν) (k : κ) (payload : ν)
    (instant now : Int) (n : HNode κ (ν × Int))
    (hfind : mc.oh.heap.find? (fun m => decide (m.k = k)) = some n)
    (hv : n.v = (payload, instant))
    (hnd : (mc.oh.heap.map HNode.k).Nodup) :
    (instant ≥ now → ∃ mc2, mc.get_data k now = .ok (some payload, mc2)) ∧
    (instant < now → ∃ mc2, mc.get_data k now = .ok (none, mc2) ∧
      mc2.oh.containsKey k = false) := by
  have hoh1 := getitem_eq mc.oh k n hfind
  set oh1 : ObjHeap κ (ν × Int) :=
    { mc.oh with
      freq := mc.oh.freq + 1,
      heap := heapify (mc.oh.heap.map fun m =>
        if m.k = k then { m with freq := mc.oh.freq + 1 } else m) } with hoh1def
  have hkeys1 : (oh1.heap.map HNode.k).Perm (mc.oh.heap.map HNode.k) := by
    have hp := (heapify_perm (mc.oh.heap.map fun m =>
      if m.k = k then { m with freq := mc.oh.freq + 1 } else m)).map HNode.k
    rwa [map_touch_keys mc.oh.heap (fun m => { m with freq := mc.oh.freq + 1 })
      (fun m => rfl) k] at hp
  have hnd1 : (oh1.heap.map HNode.k).Nodup := hkeys1.nodup_iff.mpr hnd
  constructor
  · intro hfresh
    refine ⟨⟨oh1⟩, ?_⟩
    unfold MemoryCache.get_data
    rw [hoh1]
    simp only [hv]
    rw [if_pos hfresh]
  · intro hstale
    have hpd := List.find?_some hfind
    have hnk : n.k = k := of_decide_eq_true hpd
    have hcont1 : oh1.containsKey k = true := by
      rw [containsKey_iff]
      have hkmem : k ∈ oh1.heap.map HNode.k := by
        rw [hkeys1.mem_iff]
        exact hnk ▸ List.mem_map_of_mem HNode.k (List.mem_of_find?_eq_some hfind)
      obtain ⟨m, hm, hmk⟩ := List.mem_map.mp hkmem
      exact ⟨m, hm, hmk⟩
    obtain ⟨m, hfind2, hmem2, hmk2⟩ := find?_some_of_contains oh1 k hcont1
    refine ⟨⟨{ oh1 with heap := heapify (removeKey oh1.heap k) }⟩, ?_, ?_⟩
    · unfold MemoryCache.get_data
      rw [hoh1]
      simp only [hv]
      rw [if_neg (not_le.mpr hstale), delitem_eq oh1 k m hfind2]
    · rw [containsKey_false_iff]
      intro x hx
      have hx2 : x ∈ removeKey oh1.heap k := by
        rwa [heapify_mem_iff] at hx
      exact removeKey_keys_of_nodup oh1.heap k hnd1 x hx2

theorem get_data_expiry_witness :
    ((⟨⟨2, 0, [⟨1, (10, 5), 0⟩]⟩⟩ : MemoryCache Nat Nat).oh.heap.find?
        (fun m => decide (m.k = 1)) = some ⟨1, (10, 5), 0⟩) ∧
      (∃ mc2, (⟨⟨2, 0, [⟨1, (10, 5), 0⟩]⟩⟩ : MemoryCache Nat Nat).get_data 1 3 =
        .ok (some 10, mc2)) ∧
      (∃ mc2, (⟨⟨2, 0, [⟨1, (10, 5), 0⟩]⟩⟩ : MemoryCache Nat Nat).get_data 1 7 =
        .ok (none, mc2) ∧ mc2.oh.containsKey 1 = false) :=
  ⟨by decide,
    (get_data_expiry (⟨⟨2, 0, [⟨1, (10, 5), 0⟩]⟩⟩ : MemoryCache Nat Nat) 1 10 5 3
      ⟨1, (10, 5), 0⟩ (by decide) rfl (by decide)).1 (by decide),
    (get_data_expiry (⟨⟨2, 0, [⟨1, (10, 5), 0⟩]⟩⟩ : MemoryCache Nat Nat) 1 10 5 7
      ⟨1, (10, 5), 0⟩ (by decide) rfl (by decide)).2 (by decide)⟩

theorem cacheInner_miss {σ δ : Type} [Inhabited δ] [DecidableEq δ]
    (dumps : Response → Except String δ) (loads : δ → Except String Response)
    (dtruthy : δ → Bool) (func : CacheHandler σ) (mc : MemoryCache String δ)
    (st : σ) (req : Req) (now : Int)
    (habsent : mc.oh.containsKey req.path = false) :
    cacheInner dumps loads dtruthy func mc st req now =
      (match (func req st).1 with
       | none => .ok (none, (func req st).2, mc)
       | some res =>
         if res.cache ≠ 0 ∧ res.body ≠ "" then
           match dumps (withCacheControl res) with
           | .error e => .error e
           | .ok d =>
             match MemoryCache.set_data mc req.path d res.cache now with
             | .error e => .error e
             | .ok mc2 => .ok (some (withCacheControl res), (func req st).2, mc2)
         else .ok (some res, (func req st).2, mc)) := by
  unfold cacheInner
  rw [get_data_miss mc req.path now habsent]
  exact rfl

/-- C4 counterexample: a handler response with the negative (hence
non-positive) cache lifetime -1 and a non-empty body IS stored by the
wrapper (the source only tests Python truthiness `res.cache`, i.e.
nonzero-ness), refuting "when the lifetime is non-positive nothing is
stored"; the stored entry's expiry instant already lies in the past. -/
theorem negative_lifetime_stores_counterexample :
    (cacheInner idDumps idLoads allTruthy (countingHandler (some ⟨-1, "x", []⟩))
      (MemoryCache.init 1) 0 ⟨"p"⟩ 1000).map
      (fun r => (r.2.2.oh.containsKey "p", r.1)) =
      .ok (true, some ⟨-1, "x", [("Cache-Control", "max-age=-1")]⟩) := by
  with_unfolding_all rfl

/-- C4 amended: on an uncached path, the wrapper stores a serialized response
(and writes a `Cache-Control: max-age=<N>` header on it) if and only if the
handler's result is present, declares a NONZERO cache lifetime (Python
truthiness of `res.cache`; negative lifetimes also store, producing an
already-expired entry) and has a non-empty body; when the lifetime is zero,
the body empty, or the result absent, the handler runs but the cache state is
returned unchanged, so every subsequent call on that path re-invokes the
handler. -/
theorem store_iff_nonzero_lifetime {σ δ : Type} [Inhabited δ] [DecidableEq δ]
    (dumps : Response → Except String δ) (loads : δ → Except String Response)
    (dtruthy : δ → Bool) (func : CacheHandler σ) (mc : MemoryCache String δ)
    (st : σ) (req : Req) (now : Int)
    (hsz : 1 ≤ mc.oh.size) (habsent : mc.oh.containsKey req.path = false) :
    (∀ res st2 d, func req st = (some res, st2) → res.cache ≠ 0 → res.body ≠ "" →
      dumps (withCacheControl res) = .ok d →
      ∃ mc2, cacheInner dumps loads dtruthy func mc st req now =
          .ok (some (withCacheControl res), st2, mc2) ∧
        mc2.oh.containsKey req.path = true ∧
        ("Cache-Control", "max-age=" ++ toString res.cache) ∈ (withCacheControl res).headers) ∧
    (∀ res st2, func req st = (some res, st2) → (res.cache = 0 ∨ res.body = "") →
      cacheInner dumps loads dtruthy func mc st req now = .ok (some res, st2, mc)) ∧
    (∀ st2, func req st = (none, st2) →
      cacheInner dumps loads dtruthy func mc st req now = .ok (none, st2, mc)) := by
  refine ⟨?_, ?_, ?_⟩
  · intro res st2 d hfunc hc hb hdump
    obtain ⟨oh2, hoq, _, _, _, hcont, _, _⟩ :=
      setitem_new_spec mc.oh req.path (d, now + res.cache) hsz habsent
    refine ⟨⟨oh2⟩, ?_, hcont, setHeader_mem _ _ _⟩
    rw [cacheInner_miss dumps loads dtruthy func mc st req now habsent]
    simp only [hfunc]
    rw [if_pos (show res.cache ≠ 0 ∧ res.body ≠ "" from ⟨hc, hb⟩)]
    simp only [hdump, MemoryCache.set_data, hoq, Except.map]
  · intro res st2 hfunc hor
    rw [cacheInner_miss dumps loads dtruthy func mc st req now habsent]
    simp only [hfunc]
    have hcond : ¬ (res.cache ≠ 0 ∧ res.body ≠ "") := by
      rcases hor with h | h
      · exact fun hcb => hcb.1 h
      · exact fun hcb => hcb.2 h
    rw [if_neg hcond]
  · intro st2 hfunc
    rw [cacheInner_miss dumps loads dtruthy func mc st req now habsent]
    simp only [hfunc]

theorem store_iff_nonzero_lifetime_witness :
    (1 : Int) ≤ (MemoryCache.init (κ := String) (ν := Response) 1).oh.size ∧
      (MemoryCache.init (κ := String) (ν := Response) 1).oh.containsKey "p" = false ∧
      (∃ mc2, cacheInner idDumps idLoads allTruthy (countingHandler (some ⟨60, "x", []⟩))
          (MemoryCache.init 1) 0 ⟨"p"⟩ 1000 =
          .ok (some ⟨60, "x", [("Cache-Control", "max-age=60")]⟩, 1, mc2) ∧
        mc2.oh.containsKey "p" = true ∧
        ("Cache-Control", "max-age=60") ∈
          setHeader ([] : List (String × String)) "Cache-Control" "max-age=60") ∧
      cacheInner idDumps idLoads allTruthy (countingHandler (some ⟨0, "x", []⟩))
        (MemoryCache.init 1) 0 ⟨"p"⟩ 1000 =
        .ok (some ⟨0, "x", []⟩, 1, MemoryCache.init 1) :=
  ⟨by decide, by decide,
    (store_iff_nonzero_lifetime idDumps idLoads allTruthy
      (countingHandler (some ⟨60, "x", []⟩)) (MemoryCache.init 1) 0 ⟨"p"⟩ 1000
      (by decide) (by decide)).1 ⟨60, "x", []⟩ 1 ⟨60, "x", [("Cache-Control", "max-age=60")]⟩
      rfl (by decide) (by decide) (by with_unfolding_all rfl),
    (store_iff_nonzero_lifetime idDumps idLoads allTruthy
      (countingHandler (some ⟨0, "x", []⟩)) (MemoryCache.init 1) 0 ⟨"p"⟩ 1000
      (by decide) (by decide)).2.1 ⟨0, "x", []⟩ 1 rfl (.inl rfl)⟩

/-- C5 counterexample: a serialization failure while storing is NOT caught by
the wrapper: the whole invocation aborts with the serializer's error and the
handler's response is not returned, refuting "a serialization failure never
aborts the enclosing handler invocation". -/
theorem dumps_failure_aborts_counterexample :
    cacheInner failDumps idLoads allTruthy (countingHandler (some ⟨60, "x", []⟩))
      (MemoryCache.init 1) 0 ⟨"p"⟩ 1000 = .error "PicklingError" := by
  with_unfolding_all rfl

/-- C5 amended: the source wraps neither `pickle.dumps` nor `pickle.loads` in
an exception handler, so a serialization failure while storing — and a
deserialization failure on a cache hit — propagates out of the wrapper and
aborts that invocation; the response is not returned and nothing is stored. -/
theorem serialisation_failure_propagates {σ δ : Type} [Inhabited δ] [DecidableEq δ]
    (dumps : Response → Except String δ) (loads : δ → Except String Response)
    (dtruthy : δ → Bool) (func : CacheHandler σ) (mc : MemoryCache String δ)
    (st : σ) (req : Req) (now : Int) :
    (∀ res st2 e, mc.oh.containsKey req.path = false →
      func req st = (some res, st2) → res.cache ≠ 0 → res.body ≠ "" →
      dumps (withCacheControl res) = .error e →
      cacheInner dumps loads dtruthy func mc st req now = .error e) ∧
    (∀ (n : HNode String (δ × Int)) (e : String),
      mc.oh.heap.find? (fun m => decide (m.k = req.path)) = some n →
      n.v.2 ≥ now → dtruthy n.v.1 = true → loads n.v.1 = .error e →
      cacheInner dumps loads dtruthy func mc st req now = .error e) := by
  constructor
  · intro res st2 e habsent hfunc hc hb hdump
    rw [cacheInner_miss dumps loads dtruthy func mc st req now habsent]
    simp only [hfunc]
    rw [if_pos (show res.cache ≠ 0 ∧ res.body ≠ "" from ⟨hc, hb⟩)]
    simp only [hdump]
  · intro n e hfind hfresh htruthy hloads
    unfold cacheInner
    rw [get_data_hit_eq mc req.path now n hfind hfresh]
    simp only [htruthy, hloads, eq_self_iff_true, if_true]

theorem serialisation_failure_propagates_witness :
    (MemoryCache.init (κ := String) (ν := Response) 1).oh.containsKey "p" = false ∧
      cacheInner failDumps idLoads allTruthy (countingHandler (some ⟨60, "x", []⟩))
        (MemoryCache.init 1) 0 ⟨"p"⟩ 1000 = .error "PicklingError" :=
  ⟨by decide,
    (serialisation_failure_propagates failDumps idLoads allTruthy
      (countingHandler (some ⟨60, "x", []⟩)) (MemoryCache.init 1) 0 ⟨"p"⟩ 1000).1
      ⟨60, "x", []⟩ 1 "PicklingError" (by decide) rfl (by decide) (by decide) rfl⟩

/-- C9: whenever the Expiring Cache holds non-expired (and truthy — pickled
data is never empty) deserializable data for the request's path, the wrapper
returns the deserialized stored response and does not invoke the wrapped
handler at all: the handler effect state comes back unchanged, so in the
spec's two-call scenario the handler runs exactly once. -/
theorem cache_hit_skips_handler {σ δ : Type} [Inhabited δ] [DecidableEq δ]
    (dumps : Response → Except String δ) (loads : δ → Except String Response)
    (dtruthy : δ → Bool) (func : CacheHandler σ) (mc : MemoryCache String δ)
    (st : σ) (req : Req) (now : Int) (n : HNode String (δ × Int))
    (hfind : mc.oh.heap.find? (fun m => decide (m.k = req.path)) = some n)
    (hfresh : n.v.2 ≥ now) (htruthy : dtruthy n.v.1 = true)
    (r : Response) (hloads : loads n.v.1 = .ok r) :
    ∃ mc2, cacheInner dumps loads dtruthy func mc st req now = .ok (some r, st, mc2) := by
  unfold cacheInner
  rw [get_data_hit_eq mc req.path now n hfind hfresh]
  simp only [htruthy, hloads, eq_self_iff_true, if_true]
  exact ⟨_, rfl⟩

theorem cache_hit_skips_handler_witness :
    (cacheInner idDumps idLoads allTruthy (countingHandler (some ⟨60, "hello", []⟩))
        (MemoryCache.init 10) 0 ⟨"p"⟩ 1000 =
      .ok (some ⟨60, "hello", [("Cache-Control", "max-age=60")]⟩, 1,
        ⟨⟨10, 0, [⟨"p", (⟨60, "hello", [("Cache-Control", "max-age=60")]⟩, 1060), 0⟩]⟩⟩)) ∧
    (∃ mc2, cacheInner idDumps idLoads allTruthy (countingHandler (some ⟨60, "hello", []⟩))
        (⟨⟨10, 0, [⟨"p", (⟨60, "hello", [("Cache-Control", "max-age=60")]⟩, 1060), 0⟩]⟩⟩ :
          MemoryCache String Response) 1 ⟨"p"⟩ 1000 =
      .ok (some ⟨60, "hello", [("Cache-Control", "max-age=60")]⟩, 1, mc2)) :=
  ⟨by with_unfolding_all rfl,
    cache_hit_skips_handler idDumps idLoads allTruthy (countingHandler (some ⟨60, "hello", []⟩))
      _ 1 ⟨"p"⟩ 1000 ⟨"p", (⟨60, "hello", [("Cache-Control", "max-age=60")]⟩, 1060), 0⟩
      (by with_unfolding_all rfl) (by decide) rfl _ rfl⟩

end Midware
